import Mathlib

/-!
# Verification of the companiondog multi-modal risk scorer

Shallow embedding of the four core functions of the repository
(`run_audio` in `audio_test.py`, `run_text` in `text_prototype.py`,
`run_vision` in `vision_test.py`, `run_fusion` in `fusion_test.py`)
over exact rational arithmetic, together with theorems settling the
frozen claims about them.

Python floats are modelled by `ℚ`; `round(x, d)` / `np.round(x, d)`
(round-half-even) is modelled exactly by `roundTo d`.
-/

set_option allowUnsafeReducibility true
attribute [semireducible] Rat.add Rat.sub Rat.mul Rat.div Rat.inv Rat.neg Rat.ofScientific
set_option maxRecDepth 2000

/-- Round-half-even (banker's rounding) to an integer, the rounding mode of
Python's `round` and NumPy's `np.round`. -/
def roundHalfEven (q : ℚ) : ℤ :=
  if q - (⌊q⌋:ℚ) < 1/2 then ⌊q⌋
  else if (1:ℚ)/2 < q - (⌊q⌋:ℚ) then ⌊q⌋ + 1
  else if ⌊q⌋ % 2 = 0 then ⌊q⌋ else ⌊q⌋ + 1

/-- Rounding to `d` decimal places, `roundTo d q`, models Python's `round(q, d)`. -/
def roundTo (d : ℕ) (q : ℚ) : ℚ :=
  ((roundHalfEven (q * (10:ℚ)^d) : ℤ) : ℚ) / (10:ℚ)^d

/-! ## Result records (the dicts returned by the four core functions) -/

/-- The dict returned by `run_audio`:
`{"cough_score": ..., "events": ..., "timestamps": [...]}`. -/
structure AudioOut where
  cough_score : ℚ
  events : ℕ
  timestamps : List ℚ
  deriving DecidableEq, Repr

/-- The dict returned by `run_vision`. The Python key `best_area_ratio`
is rendered as `best_area` (the name of the Python local variable). -/
structure VisionOut where
  dog_detected : Bool
  dog_conf : ℚ
  car_conf : ℚ
  best_area : ℚ
  detected : List (String × ℚ × ℚ)
  deriving DecidableEq, Repr

/-- The dict returned by `run_text`. -/
structure TextOut where
  keywords : List String
  modifiers_detected : List String
  severity_score : ℚ
  notes : String
  deriving DecidableEq, Repr

/-- The dict returned by `run_fusion`. -/
structure FusionOut where
  risk_score : ℚ
  risk_level : String
  explanation : List String
  deriving DecidableEq, Repr

/-! ## `run_fusion` (fusion_test.py, lines 102-136) -/

/-- Shallow embedding of `run_fusion`. -/
def run_fusion (audio_out : AudioOut) (vision_out : VisionOut) (text_out : TextOut) :
    FusionOut :=
  let a := audio_out.cough_score
  let v := if vision_out.dog_detected then vision_out.dog_conf else 0
  let t := text_out.severity_score
  let risk := 0.6 * a + 0.2 * v + 0.2 * t
  let level := if risk > 0.5 then "High" else if risk ≥ 0.2 then "Medium" else "Low"
  let e1 : List String :=
    if a ≥ 0.6 then ["Audio: cough-like events detected."] else []
  let e2 : List String :=
    if vision_out.dog_detected then ["Vision: dog detected in image."] else []
  let e3 : List String :=
    if 0 < t then
      ["Text: symptoms mentioned (" ++ String.intercalate ", " text_out.keywords ++ ")."]
    else []
  let es := e1 ++ e2 ++ e3
  let explanation := if es = [] then ["No strong signals found from inputs."] else es
  { risk_score := roundTo 3 risk, risk_level := level, explanation := explanation }

/-- The exact (pre-rounding) weighted risk computed inside `run_fusion`. -/
def exactRisk (ao : AudioOut) (vo : VisionOut) (tx : TextOut) : ℚ :=
  0.6 * ao.cough_score + 0.2 * (if vo.dog_detected then vo.dog_conf else 0)
    + 0.2 * tx.severity_score

/-- The label rule of `run_fusion`, as a function of the exact risk. -/
def fusionLevel (risk : ℚ) : String :=
  if risk > 0.5 then "High" else if risk ≥ 0.2 then "Medium" else "Low"

/-! ## `run_text` (text_prototype.py, lines 99-207)

The regular expressions of `run_text` are all alternations of literal
words/phrases wrapped in `\b...\b` word boundaries, plus the negation
patterns `\b<cue>\s+<term>\b`.  They are modelled by explicit matchers on
character lists. -/

/-- Python's `\w` word-character class (ASCII range suffices: the text is
lowercased ASCII). -/
def isWordChar (c : Char) : Bool := c.isAlphanum || c = '_'

/-- Python's `\s` whitespace class (ASCII range). -/
def isSpaceChar (c : Char) : Bool :=
  c = ' ' || c = Char.ofNat 9 || c = Char.ofNat 10 || c = Char.ofNat 13
    || c = Char.ofNat 11 || c = Char.ofNat 12

/-- If `pat` is a literal head of `rest`, return the remaining suffix. -/
def leadsWith : List Char → List Char → Option (List Char)
  | [], rest => some rest
  | _ :: _, [] => none
  | p :: ps, c :: cs => if p = c then leadsWith ps cs else none

/-- Does the list start with a word character? -/
def headIsWord : List Char → Bool
  | [] => false
  | c :: _ => isWordChar c

/-- Whether `\bpat\b` matches at exactly this position, `prevIsWord` recording
whether the character before this position is a word character.  All
patterns start and end with word characters, so the two `\b` amount to:
the preceding character (if any) is not a word character, and the first
character after the match (if any) is not a word character. -/
def wordMatchHere (pat : List Char) (prevIsWord : Bool) (rest : List Char) : Bool :=
  !prevIsWord &&
    (match leadsWith pat rest with
     | some rem => !headIsWord rem
     | none => false)

def wordSearchFrom (pat : List Char) : Bool → List Char → Bool
  | _, [] => false
  | prevW, c :: cs => wordMatchHere pat prevW (c :: cs) || wordSearchFrom pat (isWordChar c) cs

/-- Models `re.search(rf"\b{pat}\b", text)` for a literal pattern. -/
def wordOccurs (pat text : List Char) : Bool := wordSearchFrom pat false text

/-- Models `\s+term\b` continuing at this position: at least one whitespace
character, then `term`, then a word boundary. -/
def afterSpaces (term : List Char) : List Char → Bool
  | [] => false
  | c :: cs =>
    isSpaceChar c &&
      ((match leadsWith term cs with
        | some rem => !headIsWord rem
        | none => false)
       || afterSpaces term cs)

def negMatchHere (cue term : List Char) (prevIsWord : Bool) (rest : List Char) : Bool :=
  !prevIsWord &&
    (match leadsWith cue rest with
     | some rem => afterSpaces term rem
     | none => false)

def negSearchFrom (cue term : List Char) : Bool → List Char → Bool
  | _, [] => false
  | prevW, c :: cs =>
      negMatchHere cue term prevW (c :: cs) || negSearchFrom cue term (isWordChar c) cs

/-- ASCII apostrophe. -/
def apoCh : Char := Char.ofNat 39

/-- Unicode right single quotation mark, the second apostrophe variant in
the `doesn['’]?t` / `didn['’]?t` patterns. -/
def rightQuoteCh : Char := Char.ofNat 8217

/-- The negation cues `no|not|without|doesn['’]?t|didn['’]?t`, expanded
into literal alternatives. -/
def negCues : List (List Char) :=
  ["no".data, "not".data, "without".data,
   "doesnt".data, ['d', 'o', 'e', 's', 'n', apoCh, 't'],
   ['d', 'o', 'e', 's', 'n', rightQuoteCh, 't'],
   "didnt".data, ['d', 'i', 'd', 'n', apoCh, 't'],
   ['d', 'i', 'd', 'n', rightQuoteCh, 't']]

/-- Models `is_negated(term)`: some negation cue, followed by whitespace and
`term`, occurs somewhere in the text (the check is global to the text). -/
def isNegated (term text : List Char) : Bool :=
  negCues.any (fun cue => negSearchFrom cue term false text)

/-- The ordered concept → patterns table of `run_text`. -/
def concepts : List (String × List String) :=
  [("cough", ["cough", "coughing", "hacking", "hack"]),
   ("gagging", ["gag", "gagging", "retch", "retching"]),
   ("sneeze", ["sneeze", "sneezing"]),
   ("lethargy", ["lethargy", "lethargic", "low energy", "tired", "fatigue", "weak"]),
   ("daycare", ["daycare", "kennel", "boarding", "grooming"]),
   ("appetite_loss", ["not eating", "loss of appetite", "no appetite", "poor appetite"])]

/-- The symptom-bearing concepts, subject to negation handling. -/
def symptomNames : List String := ["cough", "gagging", "sneeze", "lethargy", "appetite_loss"]

/-- Models `pat.split()[0]`: the first whitespace-separated token of a pattern. -/
def firstTok (s : String) : List Char := s.data.takeWhile (fun c => !isSpaceChar c)

/-- The inner pattern loop of `run_text`: try the patterns in order; a
matching pattern of a symptom concept whose first token is negated is
skipped (`continue`), the first surviving match reports the concept. -/
def conceptFound (isSymptom : Bool) (text : List Char) : List String → Bool
  | [] => false
  | pat :: pats =>
    if wordOccurs pat.data text then
      if isSymptom && isNegated (firstTok pat) text then conceptFound isSymptom text pats
      else true
    else conceptFound isSymptom text pats

/-- The concept-detection loop of `run_text` (concepts reported in table
order). -/
def detectConcepts (text : List Char) : List String :=
  (concepts.filter (fun p => conceptFound (symptomNames.contains p.1) text p.2)).map
    (fun p => p.1)

/-- Models `list(dict.fromkeys(detected))`: order-preserving dedup. -/
def dedupeAux (seen : List String) : List String → List String
  | [] => []
  | x :: xs => if seen.contains x then dedupeAux seen xs else x :: dedupeAux (seen ++ [x]) xs

def dedupe (l : List String) : List String := dedupeAux [] l

def anyWordOccurs (alts : List String) (text : List Char) : Bool :=
  alts.any (fun a => wordOccurs a.data text)

/-- The per-concept severity weights of `run_text`. -/
def weights : List (String × ℚ) :=
  [("cough", 0.25), ("gagging", 0.20), ("sneeze", 0.10),
   ("lethargy", 0.20), ("daycare", 0.10), ("appetite_loss", 0.25)]

/-- Models `weights.get(k, 0.10)`. -/
def weightOf (k : String) : ℚ :=
  match weights.find? (fun p => p.1 == k) with
  | some p => p.2
  | none => 0.10

/-- Python `str.strip().lower()` on ASCII input, as a char list. -/
def normText (s : String) : List Char :=
  (((s.data.dropWhile isSpaceChar).reverse.dropWhile isSpaceChar).reverse).map Char.toLower

/-- Shallow embedding of `run_text`. -/
def run_text (owner_note : String) : TextOut :=
  let text := normText owner_note
  if text = [] then
    { keywords := [], modifiers_detected := [], severity_score := 0,
      notes := "No owner note provided" }
  else
    let keywords := dedupe (detectConcepts text)
    let m1 := anyWordOccurs ["frequent", "often", "repeated", "many", "several"] text
    let m2 := anyWordOccurs ["multiple times", "every day", "daily"] text
    let m3 := anyWordOccurs ["at night", "night", "keeping us up"] text
    let m4 := anyWordOccurs ["dry", "hacking", "choking"] text
    let modifiers := (if m1 then ["frequent"] else [])
      ++ (if m2 then ["daily/multiple"] else [])
      ++ (if m3 then ["night"] else [])
      ++ (if m4 then ["dry/hacking"] else [])
    let intensity : ℚ := (if m1 then 0.15 else 0) + (if m2 then 0.15 else 0)
      + (if m3 then 0.10 else 0) + (if m4 then 0.10 else 0)
    let severity := (keywords.map weightOf).sum + intensity
    { keywords := keywords, modifiers_detected := modifiers,
      severity_score := min 1 (roundTo 3 severity),
      notes := "Rule-based NLP with negation + intensity modifiers (interpretable)" }

/-! ## `run_vision` (vision_test.py, lines 46-109)

The pretrained detector is an external collaborator; the adapter is
embedded as a function of the image size and the detector's list of
(label, confidence, bounding box) detections. -/

/-- One detection of the external object detector. -/
structure Detection where
  label : String
  conf : ℚ
  x1 : ℚ
  y1 : ℚ
  x2 : ℚ
  y2 : ℚ
  deriving DecidableEq, Repr

/-- Python `max(list, default=d)`. -/
def maxD (l : List ℚ) (d : ℚ) : ℚ :=
  match l with
  | [] => d
  | x :: xs => xs.foldl max x

/-- The body of the detection loop of `run_vision`; the state is
`(detected, dog_candidates, car_conf)`. -/
def visionStep (img_area : ℚ)
    (st : List (String × ℚ × ℚ) × List (ℚ × ℚ) × ℚ) (b : Detection) :
    List (String × ℚ × ℚ) × List (ℚ × ℚ) × ℚ :=
  let conf := b.conf
  let area := max 0 ((b.x2 - b.x1) * (b.y2 - b.y1))
  let frac := area / img_area
  let det := st.1 ++ [(b.label, roundTo 3 conf, roundTo 3 frac)]
  let dogs := if b.label = "dog" then st.2.1 ++ [(conf, frac)] else st.2.1
  let car := if b.label = "car" then max st.2.2 conf else st.2.2
  (det, dogs, car)

/-- Shallow embedding of `run_vision`. The Python constants are
`DOG_STRONG = 0.70`, `DOG_GREY = 0.60`, `CAR_VETO = 0.60`,
`MIN_AREA_RATIO = 0.03`. -/
def run_vision (w h : ℚ) (boxes : List Detection) : VisionOut :=
  let img_area := w * h
  let st := boxes.foldl (visionStep img_area) ([], [], 0)
  let dog_conf := maxD (st.2.1.map (fun p => p.1)) 0
  let best_area := maxD (st.2.1.map (fun p => p.2)) 0
  let car_conf := st.2.2
  let d0 :=
    if dog_conf ≥ 0.70 ∧ best_area ≥ 0.03 then true
    else if dog_conf ≥ 0.60 ∧ best_area ≥ 0.06 then true
    else false
  let dog_detected := if car_conf ≥ 0.60 ∧ dog_conf < 0.85 then false else d0
  { dog_detected := dog_detected, dog_conf := roundTo 3 dog_conf,
    car_conf := roundTo 3 car_conf, best_area := roundTo 3 best_area,
    detected := st.1 }

/-- The (confidence, area fraction) pairs of the dog-labelled detections,
in order, with the area fraction computed as in `run_vision`. -/
def dogPairs (w h : ℚ) (boxes : List Detection) : List (ℚ × ℚ) :=
  (boxes.filter (fun b => b.label = "dog")).map
    (fun b => (b.conf, max 0 ((b.x2 - b.x1) * (b.y2 - b.y1)) / (w * h)))

/-- The maximum confidence of a "car" detection (0 if none). -/
def carConfOf (boxes : List Detection) : ℚ :=
  (boxes.filter (fun b => b.label = "car")).foldl (fun acc b => max acc b.conf) 0

/-- The decision rule of `run_vision` as a function of the dog confidence
`c`, the area fraction `r`, and the car confidence. -/
def visionDecide (c r car : ℚ) : Bool :=
  let d0 :=
    if c ≥ 0.70 ∧ r ≥ 0.03 then true
    else if c ≥ 0.60 ∧ r ≥ 0.06 then true
    else false
  if car ≥ 0.60 ∧ c < 0.85 then false else d0

/-- The maximum confidence over the dog detections (what `run_vision`
uses as `dog_conf`). -/
def visionDogConf (w h : ℚ) (boxes : List Detection) : ℚ :=
  maxD ((dogPairs w h boxes).map (fun p => p.1)) 0

/-- The maximum area fraction over the dog detections (what `run_vision`
uses as `best_area`): *not* the area fraction of the maximum-confidence
dog detection. -/
def visionBestArea (w h : ℚ) (boxes : List Detection) : ℚ :=
  maxD ((dogPairs w h boxes).map (fun p => p.2)) 0

/-- The decision procedure described by claim C4's words: `c` is the
confidence of the maximum-confidence "dog" detection and `r` is the area
fraction *of that same detection* (first-seen detection wins ties; both 0
when there is no dog detection). Stated for refutation by comparison with
`run_vision`. -/
def claimVisionDetected (w h : ℚ) (boxes : List Detection) : Bool :=
  let best := (dogPairs w h boxes).foldl
    (fun best p => if p.1 > best.1 then p else best) (0, 0)
  visionDecide best.1 best.2 (carConfOf boxes)

/-! ## `run_audio` (audio_test.py, lines 96-171)

`run_audio` loads the waveform (`librosa.load`) and computes its RMS
envelope (`librosa.feature.rms`, frame 2048, hop 1024, centred zero
padding): `rms[i] = sqrt(mean(y_padded[1024*i : 1024*i + 2048]**2))`.
The square root of a rational is in general irrational, so the embedding
computes the exact per-frame *mean squares* (`frameMeanSq`) and takes the
envelope as an input constrained to be its pointwise nonnegative square
root (`IsRmsEnv`); everything downstream of the envelope is embedded
exactly. -/

/-- Safe list indexing with default 0 (all Python accesses are in bounds). -/
def getQ : List ℚ → ℕ → ℚ
  | [], _ => 0
  | x :: _, 0 => x
  | _ :: xs, n + 1 => getQ xs n

/-- Indexing by a possibly-negative position (out of range reads 0, for the
convolution window). -/
def atZ (l : List ℚ) (j : ℤ) : ℚ := if j < 0 then 0 else getQ l j.toNat

/-- Sum of squares of a frame. -/
def sumSq (l : List ℚ) : ℚ := l.foldl (fun acc x => acc + x * x) 0

/-- Frame loop of `librosa.feature.rms`: successive frames of length 2048
at hop 1024, each contributing its mean square; the fuel argument is an
upper bound on the number of frames. -/
def framesMSAux : ℕ → List ℚ → List ℚ
  | 0, _ => []
  | fuel + 1, l =>
    if 2048 ≤ l.length then sumSq (l.take 2048) / 2048 :: framesMSAux fuel (l.drop 1024)
    else []

/-- The per-frame mean squares of
`librosa.feature.rms(y, frame_length=2048, hop_length=1024)` with the
default centred zero padding (1024 zeros on each side). -/
def frameMeanSq (y : List ℚ) : List ℚ :=
  framesMSAux (y.length + 2048) (List.replicate 1024 0 ++ y ++ List.replicate 1024 0)

/-- Asserts `env` is the exact RMS envelope of the waveform `y`: the pointwise
nonnegative square root of the frame mean squares. -/
def IsRmsEnv (env y : List ℚ) : Prop :=
  List.Forall₂ (fun e m => 0 ≤ e ∧ e * e = m) env (frameMeanSq y)

/-- Models `np.convolve(rms, np.ones(5)/5, mode="same")`. -/
def smooth5 (r : List ℚ) : List ℚ :=
  (List.range r.length).map (fun i =>
    (atZ r ((i:ℤ) - 2) + atZ r ((i:ℤ) - 1) + atZ r i
      + atZ r ((i:ℤ) + 1) + atZ r ((i:ℤ) + 2)) / 5)

def insertSorted (x : ℚ) : List ℚ → List ℚ
  | [] => [x]
  | y :: ys => if x ≤ y then x :: y :: ys else y :: insertSorted x ys

def sortQ (l : List ℚ) : List ℚ := l.foldr insertSorted []

/-- Models `np.median`: middle element of the sorted list (mean of the two middle
elements for even length). -/
def medianQ (l : List ℚ) : ℚ :=
  let s := sortQ l
  let n := l.length
  if n = 0 then 0
  else if n % 2 = 1 then getQ s (n / 2)
  else (getQ s (n / 2 - 1) + getQ s (n / 2)) / 2

/-- Body of the `detect_peaks` loop: `i` is a peak when the smoothed
envelope strictly exceeds the threshold and both neighbours; it is kept
when it is the first peak or at least `minDist` frames after the last
kept peak. -/
def detectStep (sm : List ℚ) (minDist : ℕ) (thr : ℚ) (peaks : List ℕ) (i : ℕ) : List ℕ :=
  if thr < getQ sm i ∧ getQ sm (i - 1) < getQ sm i ∧ getQ sm (i + 1) < getQ sm i then
    match peaks.getLast? with
    | none => peaks ++ [i]
    | some last => if minDist ≤ i - last then peaks ++ [i] else peaks
  else peaks

/-- The inner `detect_peaks(thr)` of `run_audio`: the loop runs over
`range(1, len(rms_smooth) - 1)`. -/
def detect_peaks (sm : List ℚ) (minDist : ℕ) (thr : ℚ) : List ℕ :=
  (List.range' 1 (sm.length - 2)).foldl (detectStep sm minDist thr) []

/-- The threshold cascade `med + k*mad` for k ∈ {10, 8, 6}: the first
threshold yielding at least one peak wins (all empty: empty result). -/
def tryThresholds (sm : List ℚ) (minDist : ℕ) (med mad : ℚ) : List ℕ :=
  let t1 := detect_peaks sm minDist (med + 10 * mad)
  if t1 ≠ [] then t1
  else
    let t2 := detect_peaks sm minDist (med + 8 * mad)
    if t2 ≠ [] then t2
    else detect_peaks sm minDist (med + 6 * mad)

/-- The `peak_indices` computed by `run_audio` from the RMS envelope:
median/MAD statistics of the smoothed envelope and the threshold cascade.
`min_distance_frames = int(0.5 * sr / 1024) = sr / 2048` (floor). -/
def run_audio_peaks (env : List ℚ) (sr : ℕ) : List ℕ :=
  let sm := smooth5 env
  let med := medianQ sm
  let mad := medianQ (sm.map (fun x => |x - med|)) + 1/1000000000
  let minDist := sr / 2048
  tryThresholds sm minDist med mad

/-- Shallow embedding of `run_audio` downstream of `librosa`: `env` is the
RMS envelope of the waveform (see `IsRmsEnv`), `ylen` the number of
samples, `sr` the sample rate. -/
def run_audio (env : List ℚ) (ylen sr : ℕ) : AudioOut :=
  let peaks := run_audio_peaks env sr
  let ts := peaks.map (fun i => roundTo 2 ((i : ℚ) * 1024 / (sr : ℚ)))
  let num_events := ts.length
  let duration_s : ℚ := (ylen : ℚ) / (sr : ℚ)
  let events_per_10s := (num_events : ℚ) / max (1/1000000000) (duration_s / 10)
  let rate_score := min 1 (events_per_10s / 6)
  let count_score := min 1 ((num_events : ℚ) / 25)
  let raw_score := min 1 (0.5 * rate_score + 0.5 * count_score)
  let risk_score := if num_events < 4 then raw_score * 0.4 else raw_score
  { cough_score := roundTo 3 risk_score, events := num_events, timestamps := ts }

/-- The score formula of claim C6 as stated (before rounding):
`0.5*min(1, (n/(d/10))/6) + 0.5*min(1, n/25)`, multiplied by 0.4 when
`n < 4`. -/
def audioScoreSpec (n : ℕ) (d : ℚ) : ℚ :=
  let base := 0.5 * min 1 (((n : ℚ) / (d / 10)) / 6) + 0.5 * min 1 ((n : ℚ) / 25)
  if n < 4 then base * 0.4 else base

/-! ### Concrete waveform used for the audio counterexamples

28 blocks of 1024 samples at sample rate 5000.  Each burst block holds two
equal samples `a`, so its sum of squares is `2*a^2 = 2048*(a/32)^2` and
every 2048-sample frame (frames are aligned to the 1024-sample blocks by
the centred padding) has a rational RMS value.  The envelope `envC3` has
two strict local maxima 2 frames apart after smoothing; at sr = 5000 the
minimum peak distance is `int(0.5*5000/1024) = 2` frames, i.e. only
0.4096 s. -/

/-- A 1024-sample block with two equal samples `a` and 1022 zeros. -/
def burstBlock (a : ℚ) : List ℚ := a :: a :: List.replicate 1022 0

/-- An all-zero 1024-sample block. -/
def zeroBlock : List ℚ := List.replicate 1024 0

/-- 28672-sample waveform: bursts of amplitudes 32, 96, 160, 64, 128 in
blocks 6, 8, 10, 12, 14; zeros elsewhere. -/
def yC3 : List ℚ :=
  zeroBlock ++ zeroBlock ++ zeroBlock ++ zeroBlock ++ zeroBlock ++ zeroBlock
    ++ burstBlock 32 ++ zeroBlock ++ burstBlock 96 ++ zeroBlock ++ burstBlock 160
    ++ zeroBlock ++ burstBlock 64 ++ zeroBlock ++ burstBlock 128 ++ zeroBlock
    ++ zeroBlock ++ zeroBlock ++ zeroBlock ++ zeroBlock ++ zeroBlock ++ zeroBlock
    ++ zeroBlock ++ zeroBlock ++ zeroBlock ++ zeroBlock ++ zeroBlock ++ zeroBlock

/-- The exact RMS envelope of `yC3` (29 frames). -/
def envC3 : List ℚ :=
  [0, 0, 0, 0, 0, 0, 1, 1, 3, 3, 5, 5, 2, 2, 4, 4,
   0, 0, 0, 0, 0, 0, 0, 0, 0, 0, 0, 0, 0]

/-- Concatenation of 1024-sample blocks. -/
def blocksJoin : List (List ℚ) → List ℚ
  | [] => []
  | b :: bs => b ++ blocksJoin bs

/-- The frame mean squares of a block-aligned signal: consecutive block
pairs, one frame each. -/
def pairMS : List (List ℚ) → List ℚ
  | x :: y :: rest => (sumSq x + sumSq y) / 2048 :: pairMS (y :: rest)
  | _ => []

/-! ## Lemmas about rounding -/

theorem roundHalfEven_mono {x y : ℚ} (h : x ≤ y) : roundHalfEven x ≤ roundHalfEven y := by
  unfold roundHalfEven
  have hf : ⌊x⌋ ≤ ⌊y⌋ := Int.floor_le_floor h
  rcases lt_or_eq_of_le hf with hlt | heq
  · -- different floors: the x-value rounds to at most ⌊x⌋+1 ≤ ⌊y⌋
    have hx1 : (if x - (⌊x⌋:ℚ) < 1/2 then ⌊x⌋
        else if (1:ℚ)/2 < x - (⌊x⌋:ℚ) then ⌊x⌋ + 1
        else if ⌊x⌋ % 2 = 0 then ⌊x⌋ else ⌊x⌋ + 1) ≤ ⌊x⌋ + 1 := by
      split <;> [omega; (split <;> [omega; (split <;> omega)])]
    have hy1 : ⌊y⌋ ≤ (if y - (⌊y⌋:ℚ) < 1/2 then ⌊y⌋
        else if (1:ℚ)/2 < y - (⌊y⌋:ℚ) then ⌊y⌋ + 1
        else if ⌊y⌋ % 2 = 0 then ⌊y⌋ else ⌊y⌋ + 1) := by
      split <;> [omega; (split <;> [omega; (split <;> omega)])]
    omega
  · -- equal floors: compare fractional parts
    have hr : x - (⌊x⌋:ℚ) ≤ y - (⌊x⌋:ℚ) := by linarith
    simp only [← heq]
    split
    · split <;> [omega; (split <;> [omega; (split <;> omega)])]
    · -- fractional part of x is ≥ 1/2
      rename_i h1
      push_neg at h1
      have h2 : ¬ (y - (⌊x⌋:ℚ) < 1/2) := by push_neg; linarith
      rw [if_neg h2]
      split
      · -- x strictly above 1/2 forces y strictly above 1/2
        rename_i h3
        have h4 : (1:ℚ)/2 < y - (⌊x⌋:ℚ) := lt_of_lt_of_le h3 hr
        rw [if_pos h4]
      · -- fractional part of x is exactly 1/2
        split <;> split <;> omega

theorem roundTo_mono (d : ℕ) {x y : ℚ} (h : x ≤ y) : roundTo d x ≤ roundTo d y := by
  unfold roundTo
  have hp : (0:ℚ) < (10:ℚ)^d := by positivity
  have hm : x * (10:ℚ)^d ≤ y * (10:ℚ)^d :=
    mul_le_mul_of_nonneg_right h (le_of_lt hp)
  have hr : roundHalfEven (x * (10:ℚ)^d) ≤ roundHalfEven (y * (10:ℚ)^d) :=
    roundHalfEven_mono hm
  exact (div_le_div_iff_of_pos_right hp).mpr (by exact_mod_cast hr)

/-! ## Claim theorems about `run_fusion` -/

theorem run_fusion_level_eq (ao : AudioOut) (vo : VisionOut) (tx : TextOut) :
    (run_fusion ao vo tx).risk_level = fusionLevel (exactRisk ao vo tx) := rfl

theorem run_fusion_score_eq (ao : AudioOut) (vo : VisionOut) (tx : TextOut) :
    (run_fusion ao vo tx).risk_score = roundTo 3 (exactRisk ao vo tx) := rfl

theorem fusionLevel_high_iff (r : ℚ) : fusionLevel r = "High" ↔ 0.5 < r := by
  unfold fusionLevel
  split_ifs with h1 h2 <;> simp <;> first | exact h1 | linarith

theorem fusionLevel_medium_iff (r : ℚ) : fusionLevel r = "Medium" ↔ 0.2 ≤ r ∧ r ≤ 0.5 := by
  unfold fusionLevel
  split_ifs with h1 h2 <;> simp <;> push_neg at * <;>
    first
    | (intro hc; linarith)
    | (constructor <;> linarith)

theorem fusionLevel_low_iff (r : ℚ) : fusionLevel r = "Low" ↔ r < 0.2 := by
  unfold fusionLevel
  split_ifs with h1 h2 <;> simp <;> push_neg at * <;> linarith

/-- C1: `run_fusion` computes `risk = 0.6*a + 0.2*(v if d else 0) + 0.2*t` and
labels it High exactly when `risk > 0.5`, Medium exactly when
`0.2 ≤ risk ≤ 0.5`, and Low otherwise; in particular `risk = 0.5` yields
Medium, `risk = 0.2` yields Medium, and `risk = 0.19999` yields Low. -/
theorem fusion_label_rule :
    (∀ (ao : AudioOut) (vo : VisionOut) (tx : TextOut),
      ((run_fusion ao vo tx).risk_level = "High" ↔ 0.5 < exactRisk ao vo tx)
      ∧ ((run_fusion ao vo tx).risk_level = "Medium" ↔
          0.2 ≤ exactRisk ao vo tx ∧ exactRisk ao vo tx ≤ 0.5)
      ∧ ((run_fusion ao vo tx).risk_level = "Low" ↔ exactRisk ao vo tx < 0.2))
    ∧ (run_fusion ⟨1/2, 0, []⟩ ⟨false, 0, 0, 0, []⟩ ⟨[], [], 1, ""⟩).risk_level = "Medium"
    ∧ (run_fusion ⟨1/3, 0, []⟩ ⟨false, 0, 0, 0, []⟩ ⟨[], [], 0, ""⟩).risk_level = "Medium"
    ∧ (run_fusion ⟨0, 0, []⟩ ⟨false, 0, 0, 0, []⟩ ⟨[], [], 99995/100000, ""⟩).risk_level = "Low"
    := by
  refine ⟨?_, by decide, by decide, by decide⟩
  intro ao vo tx
  rw [run_fusion_level_eq]
  exact ⟨fusionLevel_high_iff _, fusionLevel_medium_iff _, fusionLevel_low_iff _⟩

/-- C9: The fused risk score returned by `run_fusion` is monotonically
non-decreasing in the audio score, in the vision confidence (with the
detected flag held true), and in the text severity, the other inputs
being held fixed. -/
theorem fusion_monotone :
    (∀ (ao ao' : AudioOut) (vo : VisionOut) (tx : TextOut),
      ao.cough_score ≤ ao'.cough_score →
      (run_fusion ao vo tx).risk_score ≤ (run_fusion ao' vo tx).risk_score)
    ∧ (∀ (ao : AudioOut) (vo vo' : VisionOut) (tx : TextOut),
      vo.dog_detected = true → vo'.dog_detected = true →
      vo.dog_conf ≤ vo'.dog_conf →
      (run_fusion ao vo tx).risk_score ≤ (run_fusion ao vo' tx).risk_score)
    ∧ (∀ (ao : AudioOut) (vo : VisionOut) (tx tx' : TextOut),
      tx.severity_score ≤ tx'.severity_score →
      (run_fusion ao vo tx).risk_score ≤ (run_fusion ao vo tx').risk_score) := by
  refine ⟨?_, ?_, ?_⟩
  · intro ao ao' vo tx h
    rw [run_fusion_score_eq, run_fusion_score_eq]
    unfold exactRisk
    exact roundTo_mono 3 (by nlinarith [le_refl (if vo.dog_detected then vo.dog_conf else 0)])
  · intro ao vo vo' tx h h' hc
    rw [run_fusion_score_eq, run_fusion_score_eq]
    unfold exactRisk
    rw [h, h']
    simp only [if_pos]
    exact roundTo_mono 3 (by nlinarith)
  · intro ao vo tx tx' h
    rw [run_fusion_score_eq, run_fusion_score_eq]
    unfold exactRisk
    exact roundTo_mono 3 (by nlinarith)

/-- Witness for C9 at concrete inputs. -/
theorem fusion_monotone_witness :
    ((0:ℚ) ≤ 1/2
      ∧ (run_fusion ⟨0, 0, []⟩ ⟨false, 0, 0, 0, []⟩ ⟨[], [], 0, ""⟩).risk_score
        ≤ (run_fusion ⟨1/2, 0, []⟩ ⟨false, 0, 0, 0, []⟩ ⟨[], [], 0, ""⟩).risk_score)
    ∧ ((run_fusion ⟨0, 0, []⟩ ⟨true, 1/4, 0, 0, []⟩ ⟨[], [], 0, ""⟩).risk_score
        ≤ (run_fusion ⟨0, 0, []⟩ ⟨true, 3/4, 0, 0, []⟩ ⟨[], [], 0, ""⟩).risk_score)
    ∧ ((run_fusion ⟨0, 0, []⟩ ⟨false, 0, 0, 0, []⟩ ⟨[], [], 1/4, ""⟩).risk_score
        ≤ (run_fusion ⟨0, 0, []⟩ ⟨false, 0, 0, 0, []⟩ ⟨[], [], 3/4, ""⟩).risk_score) :=
  ⟨⟨by norm_num,
    fusion_monotone.1 ⟨0, 0, []⟩ ⟨1/2, 0, []⟩ ⟨false, 0, 0, 0, []⟩ ⟨[], [], 0, ""⟩
      (by norm_num)⟩,
   fusion_monotone.2.1 ⟨0, 0, []⟩ ⟨true, 1/4, 0, 0, []⟩ ⟨true, 3/4, 0, 0, []⟩
      ⟨[], [], 0, ""⟩ rfl rfl (by norm_num),
   fusion_monotone.2.2 ⟨0, 0, []⟩ ⟨false, 0, 0, 0, []⟩ ⟨[], [], 1/4, ""⟩
      ⟨[], [], 3/4, ""⟩ (by norm_num)⟩

/-- C10: `run_fusion` determines `risk_level` from the exact weighted sum
before rounding while the returned `risk_score` is that sum rounded to 3
decimals; for any input with exact risk in `(0.5, 0.5005)` the returned
record has `risk_score = 0.5` together with `risk_level = "High"`. -/
theorem fusion_round_level_split :
    ∀ (ao : AudioOut) (vo : VisionOut) (tx : TextOut),
      ((run_fusion ao vo tx).risk_level = fusionLevel (exactRisk ao vo tx)
        ∧ (run_fusion ao vo tx).risk_score = roundTo 3 (exactRisk ao vo tx))
      ∧ (0.5 < exactRisk ao vo tx → exactRisk ao vo tx < 5005/10000 →
          (run_fusion ao vo tx).risk_score = 1/2
            ∧ (run_fusion ao vo tx).risk_level = "High") := by
  intro ao vo tx
  refine ⟨⟨rfl, rfl⟩, fun h1 h2 => ⟨?_, ?_⟩⟩
  · rw [run_fusion_score_eq]
    set r := exactRisk ao vo tx with hr
    have hfl : ⌊r * (10:ℚ)^3⌋ = 500 := by
      rw [Int.floor_eq_iff]
      push_cast
      constructor <;> nlinarith
    have hfrac : r * (10:ℚ)^3 - ((⌊r * (10:ℚ)^3⌋:ℤ):ℚ) < 1/2 := by
      rw [hfl]; push_cast; nlinarith
    unfold roundTo roundHalfEven
    rw [if_pos hfrac, hfl]
    norm_num
  · rw [run_fusion_level_eq]
    exact (fusionLevel_high_iff _).mpr h1

/-- Witness for C10: audio score 0.834 alone gives exact risk 0.5004,
reported as score 0.5 with level High. -/
theorem fusion_round_level_split_witness :
    ((0.5:ℚ) < exactRisk ⟨834/1000, 0, []⟩ ⟨false, 0, 0, 0, []⟩ ⟨[], [], 0, ""⟩
      ∧ exactRisk ⟨834/1000, 0, []⟩ ⟨false, 0, 0, 0, []⟩ ⟨[], [], 0, ""⟩ < 5005/10000)
    ∧ (run_fusion ⟨834/1000, 0, []⟩ ⟨false, 0, 0, 0, []⟩ ⟨[], [], 0, ""⟩).risk_score = 1/2
    ∧ (run_fusion ⟨834/1000, 0, []⟩ ⟨false, 0, 0, 0, []⟩ ⟨[], [], 0, ""⟩).risk_level = "High" :=
  ⟨⟨by norm_num [exactRisk], by norm_num [exactRisk]⟩,
   (fusion_round_level_split ⟨834/1000, 0, []⟩ ⟨false, 0, 0, 0, []⟩ ⟨[], [], 0, ""⟩).2
      (by norm_num [exactRisk]) (by norm_num [exactRisk])⟩

/-! ## Claim theorems about `run_text` -/

theorem contains_eq_true_iff {l : List String} {x : String} :
    l.contains x = true ↔ x ∈ l := List.elem_iff

theorem contains_eq_false_iff {l : List String} {x : String} :
    l.contains x = false ↔ x ∉ l := by
  rw [← Bool.not_eq_true, not_iff_not]
  exact contains_eq_true_iff

theorem mem_dedupeAux (x : String) :
    ∀ (l seen : List String), x ∈ dedupeAux seen l ↔ x ∈ l ∧ x ∉ seen := by
  intro l
  induction l with
  | nil => intro seen; simp [dedupeAux]
  | cons y ys ih =>
    intro seen
    simp only [dedupeAux]
    by_cases hy : y ∈ seen
    · rw [if_pos (contains_eq_true_iff.mpr hy), ih]
      constructor
      · rintro ⟨hx, hs⟩
        exact ⟨List.mem_cons_of_mem _ hx, hs⟩
      · rintro ⟨hx, hs⟩
        rcases List.mem_cons.mp hx with rfl | hx'
        · exact absurd hy hs
        · exact ⟨hx', hs⟩
    · rw [if_neg (by rw [contains_eq_true_iff]; exact hy)]
      constructor
      · intro hmem
        rcases List.mem_cons.mp hmem with rfl | hmem'
        · exact ⟨List.mem_cons_self _ _, hy⟩
        · obtain ⟨hx, hs⟩ := (ih (seen ++ [y])).mp hmem'
          exact ⟨List.mem_cons_of_mem _ hx, fun hc => hs (List.mem_append_left _ hc)⟩
      · rintro ⟨hx, hs⟩
        by_cases hxy : x = y
        · subst hxy
          exact List.mem_cons_self _ _
        · rcases List.mem_cons.mp hx with rfl | hx'
          · exact absurd rfl hxy
          · refine List.mem_cons_of_mem _ ((ih (seen ++ [y])).mpr ⟨hx', fun hc => ?_⟩)
            rcases List.mem_append.mp hc with hc' | hc'
            · exact hs hc'
            · exact hxy (List.mem_singleton.mp hc')

theorem mem_dedupe (x : String) (l : List String) : x ∈ dedupe l ↔ x ∈ l := by
  unfold dedupe
  rw [mem_dedupeAux]
  simp

/-- The pattern loop of a symptom concept finds the concept iff some
pattern has a whole-word match and its first token is not (text-globally)
negated. -/
theorem conceptFound_iff (text : List Char) (pats : List String) :
    conceptFound true text pats = true ↔
      ∃ pat ∈ pats, wordOccurs pat.data text = true
        ∧ isNegated (firstTok pat) text = false := by
  induction pats with
  | nil => simp [conceptFound]
  | cons p ps ih =>
    simp only [conceptFound, Bool.true_and]
    by_cases h1 : wordOccurs p.data text = true
    · rw [if_pos h1]
      by_cases h2 : isNegated (firstTok p) text = true
      · rw [if_pos h2, ih]
        constructor
        · rintro ⟨pat, hp, hw, hn⟩
          exact ⟨pat, List.mem_cons_of_mem _ hp, hw, hn⟩
        · rintro ⟨pat, hp, hw, hn⟩
          rcases List.mem_cons.mp hp with rfl | hp'
          · rw [h2] at hn; exact absurd hn (by simp)
          · exact ⟨pat, hp', hw, hn⟩
      · rw [if_neg h2]
        simp only [true_iff]
        exact ⟨p, List.mem_cons_self _ _, h1, Bool.not_eq_true _ ▸ Bool.of_not_eq_true h2⟩
    · rw [if_neg h1, ih]
      constructor
      · rintro ⟨pat, hp, hw, hn⟩
        exact ⟨pat, List.mem_cons_of_mem _ hp, hw, hn⟩
      · rintro ⟨pat, hp, hw, hn⟩
        rcases List.mem_cons.mp hp with rfl | hp'
        · exact absurd hw h1
        · exact ⟨pat, hp', hw, hn⟩

/-- C7: On "My dog has a hacking cough after daycare and is very tired",
`run_text` returns keywords including cough, daycare and lethargy, and
severity score exactly 0.65 (= 0.25 cough + 0.10 daycare + 0.20 lethargy
+ 0.10 dry/hacking modifier). -/
theorem text_example_score :
    "cough" ∈ (run_text "My dog has a hacking cough after daycare and is very tired").keywords
    ∧ "daycare" ∈
        (run_text "My dog has a hacking cough after daycare and is very tired").keywords
    ∧ "lethargy" ∈
        (run_text "My dog has a hacking cough after daycare and is very tired").keywords
    ∧ (run_text "My dog has a hacking cough after daycare and is very tired").severity_score
        = 65/100 := by
  refine ⟨?_, ?_, ?_, ?_⟩ <;> decide

/-- Counterexample to C2 as stated: in the text "cough but no cough" the
first occurrence of "cough" is a whole-word match at the very start of the
text (second conjunct), so it is not immediately preceded by a negation
cue; per the claim it should be reported, yet `run_text` suppresses the
concept because the negation check is global to the text. -/
theorem text_negation_cex :
    "cough" ∉ (run_text "cough but no cough").keywords
    ∧ wordMatchHere "cough".data false (normText "cough but no cough") = true := by
  refine ⟨?_, by decide⟩
  decide

theorem concepts_name_unique {n : String} {p q : List String}
    (hp : (n, p) ∈ concepts) (hq : (n, q) ∈ concepts) : p = q := by
  simp only [concepts, List.mem_cons, List.not_mem_nil, or_false, Prod.mk.injEq] at hp hq
  rcases hp with ⟨h1, h2⟩|⟨h1, h2⟩|⟨h1, h2⟩|⟨h1, h2⟩|⟨h1, h2⟩|⟨h1, h2⟩ <;>
    rcases hq with ⟨g1, g2⟩|⟨g1, g2⟩|⟨g1, g2⟩|⟨g1, g2⟩|⟨g1, g2⟩|⟨g1, g2⟩ <;>
      first
      | (subst h2; subst g2; rfl)
      | (exfalso; rw [h1] at g1; simp at g1)

/-- C2 (amended): a whole-word match of a symptom-bearing concept pattern
is suppressed exactly when the text contains, *anywhere*, one of the
negation cues followed by whitespace and the first word of that pattern
(the code's negation check is global to the text, not tied to the matched
occurrence); a symptom concept is reported iff one of its patterns has a
whole-word match whose first token is not globally negated.  In
particular, for "no cough, no gagging" neither cough nor gagging appears
in the returned keywords. -/
theorem text_negation_scope :
    (∀ (s : String) (name : String) (pats : List String),
      (name, pats) ∈ concepts → name ∈ symptomNames →
      (name ∈ (run_text s).keywords ↔
        ∃ pat ∈ pats, wordOccurs pat.data (normText s) = true
          ∧ isNegated (firstTok pat) (normText s) = false))
    ∧ "cough" ∉ (run_text "no cough, no gagging").keywords
    ∧ "gagging" ∉ (run_text "no cough, no gagging").keywords := by
  refine ⟨?_, by decide, by decide⟩
  intro s name pats hmem hsym
  by_cases ht : normText s = []
  · simp [run_text, ht, wordOccurs, wordSearchFrom]
  · have hkw : (run_text s).keywords = dedupe (detectConcepts (normText s)) := by
      simp [run_text, ht]
    rw [hkw, mem_dedupe]
    have hsymB : symptomNames.contains name = true := contains_eq_true_iff.mpr hsym
    simp only [detectConcepts, List.mem_map, List.mem_filter]
    constructor
    · rintro ⟨⟨n', ps'⟩, ⟨hpc, hcf⟩, hfst⟩
      simp only at hfst
      subst hfst
      have hps : ps' = pats := concepts_name_unique hpc hmem
      subst hps
      rw [hsymB] at hcf
      exact (conceptFound_iff _ _).mp hcf
    · intro hex
      refine ⟨(name, pats), ⟨hmem, ?_⟩, rfl⟩
      simp only
      rw [hsymB]
      exact (conceptFound_iff _ _).mpr hex

/-- Witness for C2 (amended), instantiating it at the cough concept and a
concrete text. -/
theorem text_negation_scope_witness :
    (("cough", ["cough", "coughing", "hacking", "hack"]) ∈ concepts
      ∧ "cough" ∈ symptomNames)
    ∧ ("cough" ∈ (run_text "dry cough at night").keywords ↔
        ∃ pat ∈ ["cough", "coughing", "hacking", "hack"],
          wordOccurs pat.data (normText "dry cough at night") = true
            ∧ isNegated (firstTok pat) (normText "dry cough at night") = false) :=
  ⟨⟨by decide, by decide⟩,
   text_negation_scope.1 "dry cough at night" "cough"
     ["cough", "coughing", "hacking", "hack"] (by decide) (by decide)⟩

/-! ## Claim theorems about `run_vision` -/

theorem vision_fold_dogs (w h : ℚ) :
    ∀ (bs : List Detection) (st : List (String × ℚ × ℚ) × List (ℚ × ℚ) × ℚ),
      (bs.foldl (visionStep (w * h)) st).2.1 = st.2.1 ++ dogPairs w h bs := by
  intro bs
  induction bs with
  | nil => intro st; simp [dogPairs]
  | cons b bs ih =>
    intro st
    rw [List.foldl_cons, ih]
    by_cases hb : b.label = "dog"
    · simp [visionStep, dogPairs, hb]
    · simp [visionStep, dogPairs, hb]

theorem vision_fold_car (w h : ℚ) :
    ∀ (bs : List Detection) (st : List (String × ℚ × ℚ) × List (ℚ × ℚ) × ℚ),
      (bs.foldl (visionStep (w * h)) st).2.2 =
        (bs.filter (fun b => b.label = "car")).foldl (fun acc b => max acc b.conf) st.2.2 := by
  intro bs
  induction bs with
  | nil => intro st; simp
  | cons b bs ih =>
    intro st
    rw [List.foldl_cons, ih]
    by_cases hb : b.label = "car"
    · simp [visionStep, hb]
    · simp [visionStep, hb]

theorem visionDecide_iff (c r car : ℚ) :
    visionDecide c r car = true ↔
      ((0.70 ≤ c ∧ 0.03 ≤ r) ∨ (0.60 ≤ c ∧ 0.06 ≤ r))
      ∧ ¬(0.60 ≤ car ∧ c < 0.85) := by
  unfold visionDecide
  by_cases hveto : 0.60 ≤ car ∧ c < 0.85
  · rw [if_pos hveto]
    simp only [Bool.false_eq_true, false_iff]
    rintro ⟨-, hn⟩
    exact hn hveto
  · rw [if_neg hveto]
    by_cases h1 : 0.70 ≤ c ∧ 0.03 ≤ r
    · rw [if_pos h1]
      exact iff_of_true rfl ⟨Or.inl h1, hveto⟩
    · rw [if_neg h1]
      by_cases h2 : 0.60 ≤ c ∧ 0.06 ≤ r
      · rw [if_pos h2]
        exact iff_of_true rfl ⟨Or.inr h2, hveto⟩
      · rw [if_neg h2]
        refine iff_of_false (by simp) ?_
        rintro ⟨hbase | hbase, -⟩
        · exact h1 hbase
        · exact h2 hbase

theorem vision_rule_eq (w h : ℚ) (boxes : List Detection) :
    (run_vision w h boxes).dog_detected =
      visionDecide (visionDogConf w h boxes) (visionBestArea w h boxes) (carConfOf boxes) := by
  simp only [run_vision, visionDecide, visionDogConf, visionBestArea, carConfOf,
    vision_fold_dogs, vision_fold_car]
  simp

/-- C4 (amended): `run_vision` sets `dog_detected` exactly by the rule
`((c ≥ 0.70 ∧ r ≥ 0.03) ∨ (c ≥ 0.60 ∧ r ≥ 0.06)) ∧ ¬(car ≥ 0.60 ∧ c < 0.85)`
where `c` is the maximum dog confidence and `r` is the *maximum area
fraction over all dog detections*, not the area fraction of the
maximum-confidence dog detection. -/
theorem vision_rule_decoupled (w h : ℚ) (boxes : List Detection) :
    (run_vision w h boxes).dog_detected = true ↔
      ((0.70 ≤ visionDogConf w h boxes ∧ 0.03 ≤ visionBestArea w h boxes)
        ∨ (0.60 ≤ visionDogConf w h boxes ∧ 0.06 ≤ visionBestArea w h boxes))
      ∧ ¬(0.60 ≤ carConfOf boxes ∧ visionDogConf w h boxes < 0.85) := by
  rw [vision_rule_eq, visionDecide_iff]

/-- Counterexample to C4 as stated: two dog boxes in a 100×100 image, one
with confidence 0.9 but area fraction only 0.01, one with confidence 0.3
but area fraction 0.64.  `run_vision` combines the maximum confidence 0.9
with the maximum area fraction 0.64 and reports a dog; the claim's rule
(using the area fraction 0.01 of the maximum-confidence detection)
reports none. -/
theorem vision_rule_cex :
    (run_vision 100 100
      [⟨"dog", 9/10, 0, 0, 10, 10⟩, ⟨"dog", 3/10, 0, 0, 80, 80⟩]).dog_detected = true
    ∧ claimVisionDetected 100 100
      [⟨"dog", 9/10, 0, 0, 10, 10⟩, ⟨"dog", 3/10, 0, 0, 80, 80⟩] = false := by
  refine ⟨by decide, by decide⟩

/-! ## Block lemmas for the frame mean squares -/

theorem sumSq_shift (l : List ℚ) :
    ∀ a : ℚ, l.foldl (fun acc x => acc + x * x) a = a + sumSq l := by
  induction l with
  | nil => intro a; simp [sumSq]
  | cons x xs ih =>
    intro a
    simp only [sumSq, List.foldl_cons]
    rw [ih, ih (0 + x * x)]
    ring

theorem sumSq_append (l1 l2 : List ℚ) : sumSq (l1 ++ l2) = sumSq l1 + sumSq l2 := by
  unfold sumSq
  rw [List.foldl_append]
  rw [show List.foldl (fun acc x => acc + x * x) 0 l1 = sumSq l1 from rfl]
  exact sumSq_shift l2 (sumSq l1)

theorem sumSq_replicate_zero (n : ℕ) : sumSq (List.replicate n (0:ℚ)) = 0 := by
  induction n with
  | zero => rfl
  | succ m ih =>
    rw [List.replicate_succ]
    show List.foldl (fun acc x => acc + x * x) 0 ((0:ℚ) :: List.replicate m 0) = 0
    rw [List.foldl_cons, sumSq_shift, ih]
    norm_num

theorem sumSq_zeroBlock : sumSq zeroBlock = 0 := sumSq_replicate_zero 1024

theorem sumSq_burstBlock (a : ℚ) : sumSq (burstBlock a) = 2 * (a * a) := by
  unfold burstBlock sumSq
  simp only [List.foldl_cons]
  rw [sumSq_shift, sumSq_replicate_zero]
  ring

theorem framesMSAux_stop (fuel : ℕ) (l : List ℚ) (h : l.length < 2048) :
    framesMSAux fuel l = [] := by
  cases fuel with
  | zero => rfl
  | succ f => rw [framesMSAux, if_neg (by omega)]

theorem framesMSAux_step (fuel : ℕ) (x y rest : List ℚ)
    (hx : x.length = 1024) (hy : y.length = 1024) :
    framesMSAux (fuel + 1) (x ++ (y ++ rest)) =
      (sumSq x + sumSq y) / 2048 :: framesMSAux fuel (y ++ rest) := by
  have hlen : 2048 ≤ (x ++ (y ++ rest)).length := by
    simp only [List.length_append, hx, hy]
    omega
  rw [framesMSAux, if_pos hlen]
  have htake : (x ++ (y ++ rest)).take 2048 = x ++ y := by
    rw [List.take_append_eq_append_take, List.take_of_length_le (by omega), hx]
    rw [show 2048 - 1024 = 1024 from rfl]
    rw [List.take_append_eq_append_take, List.take_of_length_le (by omega), hy]
    simp
  have hdrop : (x ++ (y ++ rest)).drop 1024 = y ++ rest := by
    rw [← hx, List.drop_left]
  rw [htake, hdrop, sumSq_append]

theorem framesMSAux_blocks :
    ∀ (bs : List (List ℚ)) (fuel : ℕ), (∀ b ∈ bs, b.length = 1024) →
      bs.length ≤ fuel + 1 →
      framesMSAux fuel (blocksJoin bs) = pairMS bs := by
  intro bs
  induction bs with
  | nil =>
    intro fuel _ _
    rw [show blocksJoin [] = [] from rfl, framesMSAux_stop _ _ (by simp)]
    rfl
  | cons x bs ih =>
    intro fuel hlen hfuel
    cases bs with
    | nil =>
      rw [show blocksJoin [x] = x ++ [] from rfl]
      rw [framesMSAux_stop _ _ (by simp [hlen x (by simp)])]
      rfl
    | cons y rest =>
      cases fuel with
      | zero => simp at hfuel
      | succ f =>
        rw [show blocksJoin (x :: y :: rest) = x ++ (y ++ blocksJoin rest) from rfl]
        rw [framesMSAux_step f x y (blocksJoin rest)
          (hlen x (by simp)) (hlen y (by simp))]
        rw [show (y ++ blocksJoin rest : List ℚ) = blocksJoin (y :: rest) from rfl]
        rw [ih f (fun b hb => hlen b (List.mem_cons_of_mem _ hb)) (by simpa using hfuel)]
        rfl

theorem yC3_length : yC3.length = 28672 := by
  simp only [yC3, zeroBlock, burstBlock, List.length_append, List.length_replicate,
    List.length_cons]

theorem yC3_blocks :
    List.replicate 1024 (0:ℚ) ++ yC3 ++ List.replicate 1024 0 =
      blocksJoin [zeroBlock, zeroBlock, zeroBlock, zeroBlock, zeroBlock, zeroBlock,
        zeroBlock, burstBlock 32, zeroBlock, burstBlock 96, zeroBlock, burstBlock 160,
        zeroBlock, burstBlock 64, zeroBlock, burstBlock 128, zeroBlock, zeroBlock,
        zeroBlock, zeroBlock, zeroBlock, zeroBlock, zeroBlock, zeroBlock, zeroBlock,
        zeroBlock, zeroBlock, zeroBlock, zeroBlock, zeroBlock] := by
  simp only [yC3, blocksJoin, zeroBlock, List.append_assoc, List.append_nil]

theorem frameMeanSq_yC3 : frameMeanSq yC3 = envC3.map (fun e => e * e) := by
  unfold frameMeanSq
  rw [yC3_blocks, yC3_length]
  rw [framesMSAux_blocks _ 30720 ?_ (by norm_num)]
  · simp only [pairMS, sumSq_zeroBlock, sumSq_burstBlock, envC3, List.map_cons,
      List.map_nil]
    norm_num
  · intro b hb
    simp only [List.mem_cons, List.not_mem_nil, or_false] at hb
    rcases hb with rfl | rfl | rfl | rfl | rfl | rfl | rfl | rfl | rfl | rfl | rfl | rfl
      | rfl | rfl | rfl | rfl | rfl | rfl | rfl | rfl | rfl | rfl | rfl | rfl | rfl
      | rfl | rfl | rfl | rfl | rfl <;>
      simp only [zeroBlock, burstBlock, List.length_replicate, List.length_cons]

theorem envC3_isRms : IsRmsEnv envC3 yC3 := by
  unfold IsRmsEnv
  rw [frameMeanSq_yC3]
  rw [List.forall₂_map_right_iff, List.forall₂_same]
  intro x hx
  refine ⟨?_, rfl⟩
  fin_cases hx <;> norm_num

/-- Concrete evaluation of `run_audio` on the counterexample envelope:
two events 0.41 s apart (timestamps 2.05 and 2.46), score 0.132. -/
theorem run_audio_envC3 :
    run_audio envC3 28672 5000 = ⟨132/1000, 2, [41/20, 123/50]⟩ := by decide

/-! ## Peak spacing (claim C3) -/

theorem detectStep_cases (sm : List ℚ) (minDist : ℕ) (thr : ℚ) (acc : List ℕ) (i : ℕ) :
    detectStep sm minDist thr acc i = acc
    ∨ (detectStep sm minDist thr acc i = acc ++ [i]
        ∧ (acc = [] ∨ ∃ last, acc.getLast? = some last ∧ minDist ≤ i - last)) := by
  unfold detectStep
  split
  · cases hlast : acc.getLast? with
    | none =>
      exact Or.inr ⟨rfl, Or.inl (List.getLast?_eq_none_iff.mp hlast)⟩
    | some last =>
      by_cases hdist : minDist ≤ i - last
      · refine Or.inr ⟨?_, Or.inr ⟨last, rfl, hdist⟩⟩
        show (if minDist ≤ i - last then acc ++ [i] else acc) = acc ++ [i]
        exact if_pos hdist
      · refine Or.inl ?_
        show (if minDist ≤ i - last then acc ++ [i] else acc) = acc
        exact if_neg hdist
  · exact Or.inl rfl

theorem detectStep_invariant (sm : List ℚ) (minDist : ℕ) (thr : ℚ) :
    ∀ (n s : ℕ) (acc : List ℕ),
      List.Chain' (fun a b => a + minDist ≤ b) acc →
      (∀ a ∈ acc, a < s) →
      List.Chain' (fun a b => a + minDist ≤ b)
          ((List.range' s n).foldl (detectStep sm minDist thr) acc)
        ∧ ∀ a ∈ (List.range' s n).foldl (detectStep sm minDist thr) acc, a < s + n := by
  intro n
  induction n with
  | zero =>
    intro s acc hchain hbound
    exact ⟨hchain, fun a ha => by have := hbound a ha; omega⟩
  | succ m ih =>
    intro s acc hchain hbound
    rw [List.range'_succ, List.foldl_cons]
    have hstep : List.Chain' (fun a b => a + minDist ≤ b) (detectStep sm minDist thr acc s)
        ∧ ∀ a ∈ detectStep sm minDist thr acc s, a < s + 1 := by
      rcases detectStep_cases sm minDist thr acc s with heq | ⟨heq, hor⟩
      · rw [heq]
        exact ⟨hchain, fun a ha => by have := hbound a ha; omega⟩
      · rw [heq]
        constructor
        · rcases hor with rfl | ⟨last, hlast, hdist⟩
          · simp
          · have hmem : last ∈ acc := List.mem_of_getLast?_eq_some hlast
            have hlt : last < s := hbound last hmem
            refine List.chain'_append.mpr ⟨hchain, List.chain'_singleton s, ?_⟩
            intro x hx y hy
            rw [hlast] at hx
            simp only [Option.mem_def, Option.some.injEq] at hx
            simp only [List.head?_cons, Option.mem_def, Option.some.injEq] at hy
            subst hx
            subst hy
            omega
        · intro a ha
          rcases List.mem_append.mp ha with ha' | ha'
          · have := hbound a ha'; omega
          · rw [List.mem_singleton.mp ha']; omega
    obtain ⟨h1, h2⟩ := ih (s + 1) (detectStep sm minDist thr acc s) hstep.1 hstep.2
    exact ⟨h1, fun a ha => by have := h2 a ha; omega⟩

theorem detect_peaks_chain (sm : List ℚ) (minDist : ℕ) (thr : ℚ) :
    List.Chain' (fun a b => a + minDist ≤ b) (detect_peaks sm minDist thr) :=
  (detectStep_invariant sm minDist thr (sm.length - 2) 1 [] List.chain'_nil
    (by simp)).1

theorem tryThresholds_chain (sm : List ℚ) (minDist : ℕ) (med mad : ℚ) :
    List.Chain' (fun a b => a + minDist ≤ b) (tryThresholds sm minDist med mad) := by
  simp only [tryThresholds]
  split
  · exact detect_peaks_chain sm minDist _
  · split
    · exact detect_peaks_chain sm minDist _
    · exact detect_peaks_chain sm minDist _

theorem run_audio_peaks_chain (env : List ℚ) (sr : ℕ) :
    List.Chain' (fun a b => a + sr / 2048 ≤ b) (run_audio_peaks env sr) :=
  tryThresholds_chain _ _ _ _

/-- C3 (amended): consecutive peaks kept by `run_audio` are at least
`min_distance_frames = int(0.5*sr/1024) = sr/2048` frames apart, and the
returned timestamps are the peak times rounded to 2 decimals.  The frame
bound corresponds to `(sr/2048)*1024/sr` seconds, which equals 0.5 s
exactly when 2048 divides `sr` (second conjunct), but is strictly less
than 0.5 s for other sample rates — so the claimed universal 0.5 s
spacing of the returned timestamps fails (see the counterexample). -/
theorem audio_min_spacing :
    (∀ (env : List ℚ) (ylen sr : ℕ),
      (run_audio env ylen sr).timestamps =
        (run_audio_peaks env sr).map (fun i => roundTo 2 ((i : ℚ) * 1024 / (sr : ℚ))))
    ∧ (∀ (env : List ℚ) (sr i : ℕ) (hi : i + 1 < (run_audio_peaks env sr).length),
      (run_audio_peaks env sr).get ⟨i, by omega⟩ + sr / 2048 ≤
          (run_audio_peaks env sr).get ⟨i + 1, hi⟩
        ∧ (2048 ∣ sr → 0 < sr →
            (1:ℚ)/2 ≤ (((run_audio_peaks env sr).get ⟨i + 1, hi⟩ : ℚ)
              - ((run_audio_peaks env sr).get ⟨i, by omega⟩ : ℚ)) * 1024 / (sr : ℚ))) := by
  constructor
  · intro env ylen sr
    rfl
  · intro env sr i hi
    have hgap := List.chain'_iff_get.mp (run_audio_peaks_chain env sr) i (by omega)
    refine ⟨hgap, fun hdvd hpos => ?_⟩
    obtain ⟨m, rfl⟩ := hdvd
    have hm : 0 < m := by omega
    have hdiv : 2048 * m / 2048 = m := by omega
    rw [hdiv] at hgap
    set a := (run_audio_peaks env (2048 * m)).get ⟨i, by omega⟩ with ha
    set b := (run_audio_peaks env (2048 * m)).get ⟨i + 1, hi⟩ with hb
    have hcast : (a : ℚ) + (m : ℚ) ≤ (b : ℚ) := by exact_mod_cast hgap
    have hsr : (0:ℚ) < ((2048 * m : ℕ) : ℚ) := by positivity
    rw [le_div_iff₀ hsr]
    push_cast
    push_cast at hcast
    nlinarith

/-- Witness for C3 (amended) on the concrete envelope `envC3` at
sr = 4096 (a multiple of 2048): peaks 10 and 12, two frames = 0.5 s. -/
theorem audio_min_spacing_witness :
    (run_audio envC3 28672 4096).timestamps =
        (run_audio_peaks envC3 4096).map (fun i => roundTo 2 ((i : ℚ) * 1024 / ((4096:ℕ) : ℚ)))
    ∧ (run_audio_peaks envC3 4096).get ⟨0, by decide⟩ + 4096 / 2048 ≤
        (run_audio_peaks envC3 4096).get ⟨1, by decide⟩
    ∧ (1:ℚ)/2 ≤ (((run_audio_peaks envC3 4096).get ⟨1, by decide⟩ : ℚ)
        - ((run_audio_peaks envC3 4096).get ⟨0, by decide⟩ : ℚ)) * 1024 / ((4096:ℕ) : ℚ) :=
  ⟨audio_min_spacing.1 envC3 28672 4096,
   (audio_min_spacing.2 envC3 4096 0 (by decide)).1,
   (audio_min_spacing.2 envC3 4096 0 (by decide)).2 (by norm_num) (by norm_num)⟩

/-- Counterexample to C3 as stated: on the waveform `yC3` (whose exact RMS
envelope is `envC3`, first two conjuncts) at sample rate 5000, `run_audio`
returns two consecutive timestamps 2.05 and 2.46, only 0.41 s apart. -/
theorem audio_spacing_cex :
    IsRmsEnv envC3 yC3
    ∧ yC3.length = 28672
    ∧ (run_audio envC3 28672 5000).timestamps = [41/20, 123/50]
    ∧ (123/50 : ℚ) - 41/20 < 1/2 :=
  ⟨envC3_isRms, yC3_length, by rw [run_audio_envC3], by norm_num⟩

/-! ## Audio score formula (claim C6) -/

/-- The raw score computed by `run_audio` (with its redundant outer
`min(1, .)` and its `max(1e-9, d/10)` guard) equals the claimed formula
when the duration guard is inactive. -/
theorem audioScore_code_eq (n : ℕ) (d : ℚ) (h : (1:ℚ)/1000000000 ≤ d / 10) :
    (if n < 4
      then min 1 (0.5 * min 1 ((n:ℚ) / max (1/1000000000) (d / 10) / 6)
          + 0.5 * min 1 ((n:ℚ) / 25)) * 0.4
      else min 1 (0.5 * min 1 ((n:ℚ) / max (1/1000000000) (d / 10) / 6)
          + 0.5 * min 1 ((n:ℚ) / 25))) = audioScoreSpec n d := by
  rw [max_eq_right h]
  unfold audioScoreSpec
  have h1 : min (1:ℚ) ((n:ℚ) / (d / 10) / 6) ≤ 1 := min_le_left _ _
  have h2 : min (1:ℚ) ((n:ℚ) / 25) ≤ 1 := min_le_left _ _
  have hbase : 0.5 * min (1:ℚ) ((n:ℚ) / (d / 10) / 6)
      + 0.5 * min (1:ℚ) ((n:ℚ) / 25) ≤ 1 := by linarith
  split_ifs with hn
  · rw [min_eq_right hbase]
  · rw [min_eq_right hbase]

/-- C6 (amended): the `cough_score` returned by `run_audio` equals the
claimed formula value *rounded to 3 decimals*
(`0.5*min(1, (n/(d/10))/6) + 0.5*min(1, n/25)`, times 0.4 when `n < 4`,
with `n` the event count and `d` the duration in seconds).  The
hypothesis `1e-9 ≤ d/10` discharges the code's `max(1e-9, d/10)` guard. -/
theorem audio_score_rounded :
    ∀ (env : List ℚ) (ylen sr : ℕ),
      (1:ℚ)/1000000000 ≤ ((ylen : ℚ) / (sr : ℚ)) / 10 →
      (run_audio env ylen sr).cough_score =
        roundTo 3 (audioScoreSpec (run_audio env ylen sr).events ((ylen : ℚ) / (sr : ℚ))) := by
  intro env ylen sr h
  rw [← audioScore_code_eq ((run_audio env ylen sr).events) ((ylen : ℚ) / (sr : ℚ)) h]
  rfl

/-- Witness for C6 (amended) at the empty envelope, 10000 samples,
sr = 1000. -/
theorem audio_score_rounded_witness :
    (1:ℚ)/1000000000 ≤ (((10000:ℕ) : ℚ) / ((1000:ℕ) : ℚ)) / 10
    ∧ (run_audio [] 10000 1000).cough_score =
        roundTo 3 (audioScoreSpec (run_audio [] 10000 1000).events
          (((10000:ℕ) : ℚ) / ((1000:ℕ) : ℚ))) :=
  ⟨by norm_num, audio_score_rounded [] 10000 1000 (by norm_num)⟩

/-- Counterexample to C6 as stated: on the waveform `yC3` (envelope
`envC3`, 28672 samples, sr = 5000) `run_audio` finds 2 events and returns
`cough_score = 0.132`, while the claim's formula value is
88877/672000 = 0.13225744..., so the returned score is the formula value
rounded to 3 decimals, not the formula value itself. -/
theorem audio_score_cex :
    IsRmsEnv envC3 yC3
    ∧ yC3.length = 28672
    ∧ (run_audio envC3 28672 5000).events = 2
    ∧ (run_audio envC3 28672 5000).cough_score = 132/1000
    ∧ audioScoreSpec 2 ((28672 : ℚ) / (5000 : ℚ)) = 88877/672000
    ∧ (run_audio envC3 28672 5000).cough_score
        ≠ audioScoreSpec 2 ((28672 : ℚ) / (5000 : ℚ)) := by
  refine ⟨envC3_isRms, yC3_length, by rw [run_audio_envC3], by rw [run_audio_envC3],
    by decide, ?_⟩
  rw [run_audio_envC3]
  decide

/-! ## Zero-envelope lemmas (claims C5 and C8) -/

theorem getQ_zero : ∀ {l : List ℚ}, (∀ x ∈ l, x = 0) → ∀ i, getQ l i = 0 := by
  intro l
  induction l with
  | nil => intro _ i; cases i <;> rfl
  | cons x xs ih =>
    intro h i
    cases i with
    | zero => exact h x (List.mem_cons_self _ _)
    | succ n => exact ih (fun y hy => h y (List.mem_cons_of_mem _ hy)) n

theorem atZ_zero {l : List ℚ} (h : ∀ x ∈ l, x = 0) (j : ℤ) : atZ l j = 0 := by
  unfold atZ
  split
  · rfl
  · exact getQ_zero h _

theorem smooth5_zero {l : List ℚ} (h : ∀ x ∈ l, x = 0) : ∀ x ∈ smooth5 l, x = 0 := by
  intro x hx
  obtain ⟨i, _, rfl⟩ := List.mem_map.mp hx
  rw [atZ_zero h, atZ_zero h, atZ_zero h, atZ_zero h, atZ_zero h]
  norm_num

theorem mem_insertSorted {x a : ℚ} : ∀ {l : List ℚ}, x ∈ insertSorted a l → x = a ∨ x ∈ l := by
  intro l
  induction l with
  | nil => intro h; simp [insertSorted] at h; exact Or.inl h
  | cons y ys ih =>
    intro h
    unfold insertSorted at h
    split at h
    · rcases List.mem_cons.mp h with rfl | h'
      · exact Or.inl rfl
      · exact Or.inr h'
    · rcases List.mem_cons.mp h with rfl | h'
      · exact Or.inr (List.mem_cons_self _ _)
      · rcases ih h' with rfl | h''
        · exact Or.inl rfl
        · exact Or.inr (List.mem_cons_of_mem _ h'')

theorem sortQ_zero : ∀ {l : List ℚ}, (∀ x ∈ l, x = 0) → ∀ x ∈ sortQ l, x = 0 := by
  intro l
  induction l with
  | nil => intro _ x hx; simp [sortQ] at hx
  | cons y ys ih =>
    intro h x hx
    rcases mem_insertSorted hx with rfl | hx'
    · exact h x (List.mem_cons_self _ _)
    · exact ih (fun z hz => h z (List.mem_cons_of_mem _ hz)) x hx'

theorem medianQ_zero {l : List ℚ} (h : ∀ x ∈ l, x = 0) : medianQ l = 0 := by
  simp only [medianQ]
  have hs : ∀ i, getQ (sortQ l) i = 0 := getQ_zero (sortQ_zero h)
  split_ifs
  · rfl
  · exact hs _
  · rw [hs, hs]; norm_num

theorem foldl_detectStep_nopeak (sm : List ℚ) (minDist : ℕ) (thr : ℚ)
    (hthr : 0 < thr) (hz : ∀ x ∈ sm, x = 0) :
    ∀ (idxs : List ℕ) (acc : List ℕ), idxs.foldl (detectStep sm minDist thr) acc = acc := by
  intro idxs
  induction idxs with
  | nil => intro acc; rfl
  | cons i is ih =>
    intro acc
    rw [List.foldl_cons]
    have hcond : ¬(thr < getQ sm i ∧ getQ sm (i - 1) < getQ sm i
        ∧ getQ sm (i + 1) < getQ sm i) := by
      rw [getQ_zero hz i]
      rintro ⟨hc, -, -⟩
      linarith
    rw [show detectStep sm minDist thr acc i = acc from by
      unfold detectStep; rw [if_neg hcond]]
    exact ih acc

theorem detect_peaks_zero {sm : List ℚ} (hz : ∀ x ∈ sm, x = 0) {minDist : ℕ} {thr : ℚ}
    (hthr : 0 < thr) : detect_peaks sm minDist thr = [] := by
  unfold detect_peaks
  exact foldl_detectStep_nopeak sm minDist thr hthr hz _ []

theorem run_audio_peaks_zero {env : List ℚ} (h : ∀ x ∈ env, x = 0) (sr : ℕ) :
    run_audio_peaks env sr = [] := by
  have hsm : ∀ x ∈ smooth5 env, x = 0 := smooth5_zero h
  have hmed : medianQ (smooth5 env) = 0 := medianQ_zero hsm
  have habs : ∀ x ∈ (smooth5 env).map (fun x => |x - medianQ (smooth5 env)|), x = 0 := by
    intro x hx
    obtain ⟨y, hy, rfl⟩ := List.mem_map.mp hx
    rw [hsm y hy, hmed]
    norm_num
  have hmad : medianQ ((smooth5 env).map (fun x => |x - medianQ (smooth5 env)|)) = 0 :=
    medianQ_zero habs
  simp only [run_audio_peaks, tryThresholds]
  rw [detect_peaks_zero hsm (by rw [hmad, hmed]; norm_num),
    detect_peaks_zero hsm (by rw [hmad, hmed]; norm_num),
    detect_peaks_zero hsm (by rw [hmad, hmed]; norm_num)]
  simp

theorem roundTo_zero (d : ℕ) : roundTo d 0 = 0 := by
  norm_num [roundTo, roundHalfEven]

theorem run_audio_zero_env {env : List ℚ} (h : ∀ x ∈ env, x = 0) (ylen sr : ℕ) :
    run_audio env ylen sr = ⟨0, 0, []⟩ := by
  have hp := run_audio_peaks_zero h sr
  simp only [run_audio, hp, List.map_nil, List.length_nil]
  norm_num [roundTo_zero]

theorem forall₂_mem_left {R : ℚ → ℚ → Prop} :
    ∀ {l₁ l₂ : List ℚ}, List.Forall₂ R l₁ l₂ → ∀ x ∈ l₁, ∃ y ∈ l₂, R x y := by
  intro l₁ l₂ h
  induction h with
  | nil => intro x hx; simp at hx
  | cons hr _ ih =>
    intro x hx
    rcases List.mem_cons.mp hx with rfl | hx'
    · exact ⟨_, List.mem_cons_self _ _, hr⟩
    · obtain ⟨y, hy, hxy⟩ := ih x hx'
      exact ⟨y, List.mem_cons_of_mem _ hy, hxy⟩

theorem sumSq_zero_of : ∀ {l : List ℚ}, (∀ x ∈ l, x = 0) → sumSq l = 0 := by
  intro l
  induction l with
  | nil => intro _; rfl
  | cons x xs ih =>
    intro h
    show List.foldl (fun acc x => acc + x * x) 0 (x :: xs) = 0
    rw [List.foldl_cons, sumSq_shift, ih (fun y hy => h y (List.mem_cons_of_mem _ hy)),
      h x (List.mem_cons_self _ _)]
    norm_num

theorem framesMSAux_all_zero :
    ∀ (fuel : ℕ) (l : List ℚ), (∀ x ∈ l, x = 0) → ∀ m ∈ framesMSAux fuel l, m = 0 := by
  intro fuel
  induction fuel with
  | zero => intro l _ m hm; simp [framesMSAux] at hm
  | succ f ih =>
    intro l hz m hm
    rw [framesMSAux] at hm
    split at hm
    · rcases List.mem_cons.mp hm with rfl | hm'
      · rw [sumSq_zero_of (fun x hx => hz x (List.take_subset _ _ hx))]
        norm_num
      · exact ih _ (fun x hx => hz x (List.drop_subset _ _ hx)) m hm'
    · simp at hm

theorem frameMeanSq_replicate_zero (n : ℕ) :
    ∀ m ∈ frameMeanSq (List.replicate n (0:ℚ)), m = 0 := by
  apply framesMSAux_all_zero
  intro x hx
  rcases List.mem_append.mp hx with hx' | hx'
  · rcases List.mem_append.mp hx' with hx'' | hx''
    · exact (List.eq_of_mem_replicate hx'')
    · exact (List.eq_of_mem_replicate hx'')
  · exact (List.eq_of_mem_replicate hx')

/-- C8: for every nonempty all-zero waveform, `run_audio` returns zero
events, an empty timestamp list, and score 0.0. -/
theorem audio_silent_zero :
    ∀ (n sr : ℕ) (env : List ℚ), 0 < n → IsRmsEnv env (List.replicate n 0) →
      run_audio env n sr = ⟨0, 0, []⟩ := by
  intro n sr env _ henv
  have hz : ∀ x ∈ env, x = 0 := by
    intro x hx
    obtain ⟨y, hy, h0, hsq⟩ := forall₂_mem_left henv x hx
    rw [frameMeanSq_replicate_zero n y hy] at hsq
    exact mul_self_eq_zero.mp hsq
  exact run_audio_zero_env hz n sr

theorem frameMeanSq_oneBlock : frameMeanSq (List.replicate 1024 (0:ℚ)) = [0, 0] := by
  unfold frameMeanSq
  rw [show List.replicate 1024 (0:ℚ) ++ List.replicate 1024 0 ++ List.replicate 1024 0
    = blocksJoin [zeroBlock, zeroBlock, zeroBlock] from by
      simp only [blocksJoin, zeroBlock, List.append_assoc, List.append_nil]]
  rw [List.length_replicate]
  rw [framesMSAux_blocks _ 3072 ?_ (by norm_num)]
  · simp [pairMS, sumSq_zeroBlock]
  · intro b hb
    simp only [List.mem_cons, List.not_mem_nil, or_false] at hb
    rcases hb with rfl | rfl | rfl <;> simp only [zeroBlock, List.length_replicate]

theorem envZero2_isRms : IsRmsEnv [0, 0] (List.replicate 1024 0) := by
  unfold IsRmsEnv
  rw [frameMeanSq_oneBlock]
  exact List.Forall₂.cons ⟨le_refl 0, by norm_num⟩
    (List.Forall₂.cons ⟨le_refl 0, by norm_num⟩ List.Forall₂.nil)

/-- Witness for C8 at a concrete all-zero waveform of 1024 samples. -/
theorem audio_silent_zero_witness :
    0 < 1024 ∧ IsRmsEnv [0, 0] (List.replicate 1024 0)
    ∧ run_audio [0, 0] 1024 22050 = ⟨0, 0, []⟩ :=
  ⟨by norm_num, envZero2_isRms,
   audio_silent_zero 1024 22050 [0, 0] (by norm_num) envZero2_isRms⟩

theorem frameMeanSq_nil : frameMeanSq ([] : List ℚ) = [0] := by
  unfold frameMeanSq
  rw [show List.replicate 1024 (0:ℚ) ++ [] ++ List.replicate 1024 0
    = blocksJoin [zeroBlock, zeroBlock] from by
      simp only [blocksJoin, zeroBlock, List.append_assoc, List.append_nil]]
  rw [List.length_nil]
  rw [framesMSAux_blocks _ 2048 ?_ (by norm_num)]
  · simp [pairMS, sumSq_zeroBlock]
  · intro b hb
    simp only [List.mem_cons, List.not_mem_nil, or_false] at hb
    rcases hb with rfl | rfl <;> simp only [zeroBlock, List.length_replicate]

theorem envNil_isRms : IsRmsEnv [0] ([] : List ℚ) := by
  unfold IsRmsEnv
  rw [frameMeanSq_nil]
  exact List.Forall₂.cons ⟨le_refl 0, by norm_num⟩ List.Forall₂.nil

/-- C5 (amended): on an empty sample array `run_audio` does *not* signal an
error: it returns a complete zero result (score 0.0, zero events, empty
timestamp list). -/
theorem audio_empty_result :
    ∀ (sr : ℕ) (env : List ℚ), IsRmsEnv env [] → run_audio env 0 sr = ⟨0, 0, []⟩ := by
  intro sr env henv
  have hz : ∀ x ∈ env, x = 0 := by
    intro x hx
    obtain ⟨y, hy, h0, hsq⟩ := forall₂_mem_left henv x hx
    rw [frameMeanSq_nil] at hy
    rw [List.mem_singleton.mp hy] at hsq
    exact mul_self_eq_zero.mp hsq
  exact run_audio_zero_env hz 0 sr

/-- Witness for C5 (amended) at sr = 4000. -/
theorem audio_empty_result_witness :
    IsRmsEnv [0] ([] : List ℚ) ∧ run_audio [0] 0 4000 = ⟨0, 0, []⟩ :=
  ⟨envNil_isRms, audio_empty_result 4000 [0] envNil_isRms⟩

/-- Counterexample to C5 as stated: the empty sample array (RMS envelope
`[0]`, first conjunct) produces a full, well-formed zero result rather
than an invalid-input error. -/
theorem audio_empty_cex :
    IsRmsEnv [0] ([] : List ℚ) ∧ run_audio [0] 0 5000 = ⟨0, 0, []⟩ :=
  ⟨envNil_isRms, by decide⟩
